import Mathlib

set_option maxRecDepth 8192

/-!
Shallow embedding of hyprlauncher's core (src/launcher.rs and src/search.rs):
the application index, the heatmap store, the usage tracker and the three-mode
search engine.  Filesystem and environment interactions (directory listings,
`fs::metadata`, `shellexpand`, the `file --mime-type` probe, the desktop-entry
parser output) are passed in as explicit data, mirroring the values the source
reads from those calls.  Rust's `HashMap<String, _>` is modeled as an
association list observed only through `map_lookup` / `map_insert` /
`cache_values`, Rust `u32` counts as `Nat` with explicit wraparound where the
source performs arithmetic, and `i64` scores as `Int`.
-/

namespace Hyprlauncher

/-- Rust `str::to_lowercase`, which the source applies to queries and entry
names; modeled characterwise (ASCII case folding). -/
def to_lowercase (s : String) : String := ⟨s.data.map Char.toLower⟩

/-- `query.chars().next()`, the classifier the source uses to pick a mode. -/
def first_char (s : String) : Option Char := s.data.head?

/-- Rust `str::ends_with` on whole strings. -/
def ends_with (s sfx : String) : Bool := sfx.data.isSuffixOf s.data

/-- `EntryType` from src/launcher.rs. -/
inductive EntryType where
  | Application : EntryType
  | File : EntryType
deriving DecidableEq

/-- `AppEntry` from src/launcher.rs.  The `score_boost` field is the one
src/search.rs assigns on path-listing and binary-fallback entries
(`app.score_boost = ...`); the launcher-side constructors leave it 0. -/
structure AppEntry where
  name : String
  exec : String
  icon_name : String
  path : String
  description : String
  launch_count : Nat
  entry_type : EntryType
  score_boost : Int
deriving DecidableEq

/-- `SearchResult` from src/search.rs. -/
structure SearchResult where
  app : AppEntry
  score : Int
deriving DecidableEq

def BONUS_SCORE_LAUNCH_COUNT : Int := 100
def BONUS_SCORE_ICON_NAME : Int := 1000
def BONUS_SCORE_BINARY : Int := 3000
def BONUS_SCORE_FOLDER : Int := 2000

/-- `calculate_bonus_score` from src/search.rs:98-106. -/
def calculate_bonus_score (app : AppEntry) : Int :=
  (app.launch_count : Int) * BONUS_SCORE_LAUNCH_COUNT +
    (if app.icon_name = "application-x-executable" then 0 else BONUS_SCORE_ICON_NAME)

/-- `HashMap::insert`: replace the value under an existing key, otherwise
append a fresh binding. -/
def map_insert {β : Type} : List (String × β) → String → β → List (String × β)
  | [], k, v => [(k, v)]
  | p :: ps, k, v => if p.1 = k then (k, v) :: ps else p :: map_insert ps k v

/-- `HashMap::get`. -/
def map_lookup {β : Type} : List (String × β) → String → Option β
  | [], _ => none
  | p :: ps, k => if p.1 = k then some p.2 else map_lookup ps k

/-- The `name -> AppEntry` mapping held by `APP_CACHE`. -/
abbrev Index := List (String × AppEntry)

/-- The persisted `name -> launch_count` mapping (counts are `u32` in the
source; we carry them as `Nat`). -/
abbrev Heatmap := List (String × Nat)

/-- `HashMap::values()`, the iteration `search_applications` performs. -/
def cache_values (m : Index) : List AppEntry := m.map Prod.snd

/-- The heatmap file contents: `none` models a missing or unparsable file. -/
abbrev HeatmapFile := Option Heatmap

/-- `load_heatmap` from src/launcher.rs:58-64: any read or parse failure
yields the empty map. -/
def load_heatmap (file : HeatmapFile) : Heatmap := file.getD []

/-- `save_heatmap` from src/launcher.rs:43-56: read-modify-write of the whole
mapping.  The `fs::write` is modeled as succeeding (its failure is discarded
by `unwrap_or_default` in the source and the round-trip claim assumes the
write and read succeed). -/
def save_heatmap (name : String) (count : Nat) (file : HeatmapFile) : HeatmapFile :=
  some (map_insert (load_heatmap file) name count)

/-- The mutable process state the usage tracker can see: the shared index and
the on-disk heatmap file. -/
structure LauncherState where
  app_cache : Index
  heatmap_file : HeatmapFile
deriving DecidableEq

/-- `increment_launch_count` from src/launcher.rs:33-41.  The source computes
`count = app.launch_count + 1` (`u32` addition, hence the wraparound) and
spawns a thread that runs `save_heatmap(&name, count)`; the spawned write is
modeled as having completed.  Note the source never writes to `APP_CACHE`. -/
def increment_launch_count (app : AppEntry) (st : LauncherState) : LauncherState :=
  { st with
    heatmap_file := save_heatmap app.name ((app.launch_count + 1) % 4294967296) st.heatmap_file }

example : map_lookup (map_insert [("a", 1)] "b" 2) "b" = some 2 := by decide
example : to_lowercase "File Manager" = "file manager" := by decide
example : ends_with "/x/files.desktop" ".desktop" = true := by decide

/-- The slice of `fs::metadata` the source consults: file/dir kind and the
`mode() & 0o111 != 0` executable test. -/
structure FileMeta where
  is_file : Bool
  is_dir : Bool
  exec_bit : Bool
deriving DecidableEq

/-- The filesystem and environment facts the search/resolver code reads.
Each field models one external call: `shellexpand::full` (`none` = expansion
error), `fs::metadata` (`none` = error), `fs::read_dir` (child paths in
iteration order, already filtered to the `Ok` entries), `Path::parent`,
`Path::file_name` (with its `to_str` conversion), and the output of the
`file --mime-type -b` probe (its `Err` branch already folded to
`application/octet-stream` by the source). -/
structure FS where
  expand : String → Option String
  meta : String → Option FileMeta
  read_dir : String → Option (List String)
  parent : String → Option String
  file_name : String → Option String
  mime_of : String → String

/-- Rust `Path::extension` on a file name: the part after the last `.`,
`none` when there is no `.` or when everything precedes it is empty
(hidden files such as `.bashrc`). -/
def path_extension (fname : List Char) : Option (List Char) :=
  let rev := fname.reverse
  let ext := rev.takeWhile (fun c => c ≠ '.')
  match rev.drop ext.length with
  | [] => none
  | _ :: stem => if stem.isEmpty then none else some ext.reverse

example : path_extension "a.pdf".data = some "pdf".data := by decide
example : path_extension ".bashrc".data = none := by decide
example : path_extension "hosts".data = none := by decide

/-- The `xdg-mime`/`xdg-open` command line `create_file_entry` builds for
non-executable regular files. -/
def xdg_open_command (mime path : String) : String :=
  "xdg-mime query default " ++ mime ++
    " | xargs -I \x7b\x7d sh -c \x27which \x7b\x7d >/dev/null && \x7b\x7d \x22" ++
    path ++ "\x22 || xdg-open \x22" ++ path ++ "\x22\x27"

/-- The mime-bucket icon choice of `create_file_entry` (src/launcher.rs:253-266). -/
def mime_icon (fs : FS) (mime path : String) : String :=
  match (⟨mime.data.takeWhile (fun c => c ≠ '/')⟩ : String) with
  | "text" => "text-x-generic"
  | "image" => "image-x-generic"
  | "audio" => "audio-x-generic"
  | "video" => "video-x-generic"
  | "application" =>
    match (fs.file_name path).bind (fun n => path_extension n.data) with
    | some ext => if (⟨ext⟩ : String) = "pdf" then "application-pdf" else "application-x-generic"
    | none => "application-x-generic"
  | _ => "text-x-generic"

/-- `create_file_entry` from src/launcher.rs:220-280. -/
def create_file_entry (fs : FS) (path0 : String) : Option AppEntry :=
  let pathOpt : Option String :=
    if first_char path0 = some '~' ∨ first_char path0 = some '$' then fs.expand path0
    else some path0
  match pathOpt with
  | none => none
  | some path =>
    match fs.meta path with
    | none => none
    | some m =>
      if !m.is_file && !m.is_dir then none
      else
        match fs.file_name path with
        | none => none
        | some name =>
          let pr : String × String :=
            if m.is_dir then ("folder", "")
            else if m.exec_bit then ("application-x-executable", "\x22" ++ path ++ "\x22")
            else
              let mime := fs.mime_of path
              (mime_icon fs mime path, xdg_open_command mime path)
          some { name := name, exec := pr.2, icon_name := pr.1, path := path,
                 description := "", launch_count := 0, entry_type := EntryType.File,
                 score_boost := 0 }

/-- Byte-lexicographic comparison of Rust `String::cmp`, acting on the
decoded character sequences (UTF-8 byte order coincides with codepoint
order). -/
def lex_cmp : List Char → List Char → Ordering
  | [], [] => Ordering.eq
  | [], _ :: _ => Ordering.lt
  | _ :: _, [] => Ordering.gt
  | a :: as, b :: bs =>
    if a.toNat < b.toNat then Ordering.lt
    else if b.toNat < a.toNat then Ordering.gt
    else lex_cmp as bs

/-- The key the path-listing comparator lowercases (`a.app.name.to_lowercase()`). -/
def res_name_key (r : SearchResult) : List Char := (to_lowercase r.app.name).data

/-- Whether a listing entry is a directory entry, exactly as the source tests
it (`app.icon_name == "folder"`). -/
def is_folder_result (r : SearchResult) : Prop := r.app.icon_name = "folder"

instance : DecidablePred is_folder_result := fun r =>
  inferInstanceAs (Decidable (r.app.icon_name = "folder"))

/-- The comparator passed to `entries.sort_by` in `handle_path_search`
(src/search.rs:185-194): directories first, then case-insensitive name order. -/
def path_cmp (a b : SearchResult) : Ordering :=
  if a.app.icon_name = "folder" then
    if b.app.icon_name = "folder" then lex_cmp (res_name_key a) (res_name_key b)
    else Ordering.lt
  else
    if b.app.icon_name = "folder" then Ordering.gt
    else lex_cmp (res_name_key a) (res_name_key b)

/-- The non-strict order induced by `path_cmp`; Rust's stable `sort_by`
produces the unique stable reordering sorted under this relation, which
insertion sort realizes. -/
def path_le (a b : SearchResult) : Prop := path_cmp a b ≠ Ordering.gt

instance : DecidableRel path_le := fun a b =>
  inferInstanceAs (Decidable (path_cmp a b ≠ Ordering.gt))

/-- Scoring and `score_boost` assignment applied to each readable child of the
listing directory (src/search.rs:169-183). -/
def resolve_child (fs : FS) (child : String) : Option SearchResult :=
  (create_file_entry fs child).map fun app =>
    let score := if app.icon_name = "folder" then BONUS_SCORE_FOLDER else BONUS_SCORE_ICON_NAME
    { app := { app with score_boost := score }, score := score }

/-- The directory whose children get listed (src/search.rs:140-149). -/
def listing_dir (fs : FS) (q : String) : String :=
  let expanded := (fs.expand q).getD q
  if (fs.meta expanded).any (fun m => m.is_dir) then expanded
  else (fs.parent expanded).getD "/"

/-- The synthetic `..` entry (src/search.rs:156-167): present only when the
listing directory has a parent that `create_file_entry` resolves. -/
def dotdot_entry (fs : FS) (dir : String) : List SearchResult :=
  match fs.parent dir with
  | none => []
  | some parent_dir =>
    match create_file_entry fs parent_dir with
    | none => []
    | some e =>
      [{ app := { e with name := "..", score_boost := BONUS_SCORE_FOLDER },
         score := BONUS_SCORE_FOLDER }]

/-- `handle_path_search` from src/search.rs:138-200. -/
def handle_path_search (fs : FS) (q : String) : List SearchResult :=
  let dir := listing_dir fs q
  match fs.read_dir dir with
  | none => []
  | some children =>
    dotdot_entry fs dir ++ List.insertionSort path_le (children.filterMap (resolve_child fs))

/-- Descending-score order: `sort_unstable_by_key(|item| -item.score)` places
`a` before `b` exactly when `a.score ≥ b.score`; the tie order of Rust's
unstable sort is unspecified, and insertion sort realizes one sorted
permutation. -/
def score_ge (a b : SearchResult) : Prop := b.score ≤ a.score

instance : DecidableRel score_ge := fun a b => inferInstanceAs (Decidable (b.score ≤ a.score))

/-- The empty-query loop of `search_applications` (src/search.rs:33-46): keep
`.desktop`-path entries, breaking once the vector length reaches
`max_results`.  `len` is the current vector length. -/
def empty_query_loop (max_results : Nat) : Nat → List AppEntry → List SearchResult
  | _, [] => []
  | len, app :: rest =>
    if ends_with app.path ".desktop" then
      let r : SearchResult := { app := app, score := calculate_bonus_score app }
      if max_results ≤ len + 1 then [r]
      else r :: empty_query_loop max_results (len + 1) rest
    else empty_query_loop max_results len rest

/-- Empty-query mode: collect (with the early break), then sort descending by
score (src/search.rs:33-49). -/
def search_empty (max_results : Nat) (apps : List AppEntry) : List SearchResult :=
  List.insertionSort score_ge (empty_query_loop max_results 0 apps)

/-- The per-entry text-mode score (src/search.rs:56-73): an exact
case-insensitive name match short-circuits to `BONUS_SCORE_BINARY` plus the
bonus terms, otherwise the fuzzy score (when the matcher finds one) plus the
bonus terms.  `matcher nl q` models `SkimMatcherV2::fuzzy_match(&nl, &q)`. -/
def text_score (matcher : String → String → Option Int) (q : String) (app : AppEntry) :
    Option Int :=
  if to_lowercase app.name = q then some (BONUS_SCORE_BINARY + calculate_bonus_score app)
  else (matcher (to_lowercase app.name) q).map (fun s => s + calculate_bonus_score app)

/-- The candidate results the text-mode loop pushes, in cache order. -/
def text_candidates (matcher : String → String → Option Int) (q : String)
    (apps : List AppEntry) : List SearchResult :=
  apps.filterMap fun app => (text_score matcher q app).map fun s => { app := app, score := s }

/-- The `seen_names` set (src/search.rs:54-73): the lowercased names inserted
by the two push branches, i.e. of exactly the entries that produced a
candidate. -/
def seen_names (matcher : String → String → Option Int) (q : String)
    (apps : List AppEntry) : List String :=
  apps.filterMap fun app =>
    if (text_score matcher q app).isSome then some (to_lowercase app.name) else none

/-- Rust `str::split_whitespace`. -/
def split_whitespace_aux : List Char → List Char → List String
  | [], acc => if acc.isEmpty then [] else [⟨acc.reverse⟩]
  | c :: cs, acc =>
    if c.isWhitespace then
      if acc.isEmpty then split_whitespace_aux cs []
      else (⟨acc.reverse⟩ : String) :: split_whitespace_aux cs []
    else split_whitespace_aux cs (c :: acc)

def split_whitespace (s : String) : List String := split_whitespace_aux s.data []

example : split_whitespace "  ls  -l a " = ["ls", "-l", "a"] := by decide

/-- `Vec::join(" ")`. -/
def join_spaces : List String → String
  | [] => ""
  | [s] => s
  | s :: rest => s ++ " " ++ join_spaces rest

/-- `check_binary` from src/search.rs:108-136: probe `/usr/bin/<first token>`
for an executable and synthesize a `File` entry scored at the binary-fallback
constant. -/
def check_binary (fs : FS) (query : String) : Option SearchResult :=
  match split_whitespace query with
  | [] => none
  | p0 :: rest =>
    let bin_path := "/usr/bin/" ++ p0
    if ((fs.meta bin_path).map (fun m => m.exec_bit)).getD false then
      some { app := { name := query, description := "",
                      path := bin_path,
                      exec := if rest.isEmpty then bin_path
                              else bin_path ++ " " ++ join_spaces rest,
                      icon_name := "application-x-executable", launch_count := 0,
                      entry_type := EntryType.File, score_boost := BONUS_SCORE_BINARY },
             score := BONUS_SCORE_BINARY }
    else none

/-- Text mode (src/search.rs:51-87): candidates in cache order, the binary
fallback appended only when no candidate's lowercased name equals the query,
then a descending sort by score and `truncate(max_results)`. -/
def search_text (matcher : String → String → Option Int) (fs : FS) (max_results : Nat)
    (q : String) (apps : List AppEntry) : List SearchResult :=
  let results := text_candidates matcher q apps
  let results :=
    if q ∈ seen_names matcher q apps then results
    else results ++ (check_binary fs q).toList
  (List.insertionSort score_ge results).take max_results

/-- `search_applications` from src/search.rs:19-96: lowercase the query, then
dispatch on its first character (`~`/`$`/`/` → path mode, none → empty-query
mode, anything else → text mode).  `apps` is the `APP_CACHE.values()`
snapshot the blocking task reads. -/
def search_applications (matcher : String → String → Option Int) (fs : FS)
    (max_results : Nat) (query : String) (apps : List AppEntry) : List SearchResult :=
  let q := to_lowercase query
  match first_char q with
  | some c =>
    if c = '~' ∨ c = '$' ∨ c = '/' then handle_path_search fs q
    else search_text matcher fs max_results q apps
  | none => search_empty max_results apps

/-- Modelled from the spec: the fuzzy matcher is the external `fuzzy-matcher`
crate's `SkimMatcherV2`, whose code is not part of this repository.  Per the
spec it is "a subsequence-based approximate string match producing a numeric
closeness score": the query must occur as a (not necessarily contiguous)
subsequence of the name, and a match yields a nonnegative score.  We use a
skim-like per-matched-character score of 16 points. -/
def is_subseq : List Char → List Char → Bool
  | [], _ => true
  | _ :: _, [] => false
  | q :: qs, c :: cs => if q = c then is_subseq qs cs else is_subseq (q :: qs) cs

/-- Modelled from the spec (see `is_subseq`): a concrete instance of the
fuzzy-matcher interface used to evaluate the search engine on concrete
inputs. -/
def subseq_score (name q : String) : Option Int :=
  if is_subseq q.data name.data then some (16 * (q.data.length : Int)) else none

example : subseq_score "file manager" "file" = some 64 := by decide
example : subseq_score "file-roller" "files" = none := by decide

/-- A filesystem on which every probe fails; used where a mode under scrutiny
never consults the filesystem. -/
def empty_fs : FS :=
  { expand := fun _ => none, meta := fun _ => none, read_dir := fun _ => none,
    parent := fun _ => none, file_name := fun _ => none,
    mime_of := fun _ => "application/octet-stream" }

/-- The keys `load_applications` reads from one parsed desktop-entry file
(`parse_entry(...).section("Desktop Entry").attr(...)`).  `no_display` is the
`NoDisplay` key, exposed by the parser like every other attribute; whether the
code consults it is exactly what claim C6 is about. -/
structure DesktopEntryData where
  name : Option String
  exec : Option String
  icon : Option String
  comment : Option String
  generic_name : Option String
  no_display : Option String
deriving DecidableEq

/-- One directory entry seen by the desktop-entry scan: its file name
(`entry.file_name().to_str()`), its full path (`entry.path()`), and the
outcome of `parse_entry` (`none` = parse error). -/
structure DesktopFile where
  file_name : Option String
  path : String
  parsed : Option DesktopEntryData
deriving DecidableEq

/-- The body of the desktop-entry scan loop (src/launcher.rs:89-133). -/
def process_desktop_file (heatmap : Heatmap) (apps : Index) (f : DesktopFile) : Index :=
  match f.file_name with
  | none => apps
  | some fname =>
    if ends_with fname ".desktop" then
      match f.parsed with
      | none => apps
      | some d =>
        match d.name with
        | none => apps
        | some app_name =>
          map_insert apps app_name
            { name := app_name
              exec := d.exec.getD ""
              icon_name := d.icon.getD "application-x-executable"
              path := f.path
              description := (match d.comment with
                              | some c => c
                              | none => d.generic_name.getD "")
              launch_count := (map_lookup heatmap app_name).getD 0
              entry_type := EntryType.Application
              score_boost := 0 }
    else apps

/-- One candidate from the PATH walk (src/launcher.rs:143-160): file-type and
permission facts plus the (possibly non-UTF-8, hence optional) file name. -/
structure PathCandidate where
  is_file : Bool
  exec_bit : Bool
  file_name : Option String
  path : String
deriving DecidableEq

/-- The `(name, AppEntry)` pairs the PATH scan produces
(src/launcher.rs:143-183).  `icon_lookup` models `find_desktop_entry`, the
probe of the three fixed desktop-entry directories for a non-empty `Icon`. -/
def path_phase_entries (heatmap : Heatmap) (icon_lookup : String → Option String)
    (cands : List PathCandidate) : List (String × AppEntry) :=
  cands.filterMap fun c =>
    if c.is_file && c.exec_bit then
      c.file_name.map fun nm =>
        (nm, { name := nm, exec := c.path,
               icon_name := (icon_lookup nm).getD "",
               path := c.path, description := "",
               launch_count := (map_lookup heatmap nm).getD 0,
               entry_type := EntryType.Application, score_boost := 0 })
    else none

/-- `load_applications` from src/launcher.rs:66-192: scan the desktop-entry
roots into a fresh map, then insert every PATH-scan result over it (last
insert wins), and swap the result into the shared cache.  `desktop_files` is
the flattened, scan-ordered stream of directory entries over all roots. -/
def load_applications (heatmap : Heatmap) (desktop_files : List DesktopFile)
    (icon_lookup : String → Option String) (path_cands : List PathCandidate) : Index :=
  let apps := desktop_files.foldl (process_desktop_file heatmap) []
  (path_phase_entries heatmap icon_lookup path_cands).foldl
    (fun m p => map_insert m p.1 p.2) apps

/-! ## Map lemmas -/

theorem map_lookup_map_insert {β : Type} (m : List (String × β)) (a k : String) (v : β) :
    map_lookup (map_insert m a v) k = if a = k then some v else map_lookup m k := by
  induction m with
  | nil => simp [map_insert, map_lookup]
  | cons p ps ih =>
    by_cases hp : p.1 = a
    · by_cases hk : a = k <;> simp [map_insert, map_lookup, hp, hk]
    · by_cases hk : p.1 = k
      · have h1 : ¬ a = k := fun h => hp (h ▸ hk)
        have h2 : ¬ k = a := fun h => h1 h.symm
        simp [map_insert, map_lookup, hp, hk, h1, h2]
      · simp [map_insert, map_lookup, hp, hk, ih]

theorem map_lookup_insert_self {β : Type} (m : List (String × β)) (k : String) (v : β) :
    map_lookup (map_insert m k v) k = some v := by
  simp [map_lookup_map_insert]

/-! ## C8: heatmap round-trip -/

/-- C8: `save_heatmap name n` followed by `load_heatmap` yields a mapping
containing `name -> n` (the file write and read are modeled as succeeding, as
the claim assumes). -/
theorem c8_heatmap_save_load_roundtrip (name : String) (n : Nat) (file : HeatmapFile) :
    map_lookup (load_heatmap (save_heatmap name n file)) name = some n := by
  simp only [save_heatmap, load_heatmap, Option.getD_some]
  exact map_lookup_insert_self _ _ _

/-! ## C1: record_launch does not touch the shared index -/

/-- C1 (amended): `increment_launch_count` leaves the shared index unchanged;
it only persists `launch_count + 1` (u32 arithmetic) under the entry's name
into the heatmap file, so an immediately repeated empty-query search reports
an unchanged score and the increment becomes visible only after the next
`load_applications` rebuild. -/
theorem c1_increment_updates_heatmap_not_cache (app : AppEntry) (st : LauncherState) :
    (increment_launch_count app st).app_cache = st.app_cache ∧
      map_lookup (load_heatmap (increment_launch_count app st).heatmap_file) app.name =
        some ((app.launch_count + 1) % 4294967296) := by
  refine ⟨rfl, ?_⟩
  simp only [increment_launch_count, save_heatmap, load_heatmap, Option.getD_some]
  exact map_lookup_insert_self _ _ _

/-- The `"Files"` entry of the spec's C1 scenario, with 5 recorded launches. -/
def files_entry : AppEntry :=
  { name := "Files", exec := "nautilus", icon_name := "system-file-manager",
    path := "/usr/share/applications/files.desktop", description := "File manager",
    launch_count := 5, entry_type := EntryType.Application, score_boost := 0 }

/-- Process state for the C1 scenario. -/
def c1_state : LauncherState :=
  { app_cache := [("Files", files_entry)], heatmap_file := some [("Files", 5)] }

/-- The score the result list reports for a given entry name. -/
def result_score (rs : List SearchResult) (n : String) : Option Int :=
  (rs.find? (fun r => r.app.name == n)).map (fun r => r.score)

/-- C1 is false on the code: after `increment_launch_count` on `"Files"`
(launch count 5, score 5*100 + 1000 = 1500), an immediate empty-query search
still reports score 1500, not 1500 + `BONUS_SCORE_LAUNCH_COUNT`, because the
function never writes to `APP_CACHE`. -/
theorem c1_search_score_unchanged_after_increment :
    result_score (search_applications subseq_score empty_fs 50 ""
        (cache_values c1_state.app_cache)) "Files" = some 1500 ∧
      result_score (search_applications subseq_score empty_fs 50 ""
        (cache_values (increment_launch_count files_entry c1_state).app_cache)) "Files" =
        some 1500 ∧
      ¬ ((1500 : Int) = 1500 + BONUS_SCORE_LAUNCH_COUNT) := by
  refine ⟨by decide, by decide, by decide⟩

/-! ## C6: NoDisplay is never consulted -/

/-- Overwrite the `NoDisplay` attribute of a scanned desktop-entry file. -/
def set_no_display (v : Option String) (f : DesktopFile) : DesktopFile :=
  { f with parsed := f.parsed.map (fun d => { d with no_display := v }) }

theorem process_desktop_file_set_no_display (heatmap : Heatmap) (apps : Index)
    (v : Option String) (f : DesktopFile) :
    process_desktop_file heatmap apps (set_no_display v f) =
      process_desktop_file heatmap apps f := by
  rcases f with ⟨fn, path, parsed⟩
  cases parsed with
  | none => rfl
  | some d => rfl

/-- C6 (amended): `load_applications` never consults `NoDisplay` — the index
it builds is unchanged when every scanned file's `NoDisplay` value is replaced
by an arbitrary one.  In particular a `NoDisplay=true` file with a `Name`
still contributes an entry (see the counterexample). -/
theorem c6_nodisplay_ignored (heatmap : Heatmap) (desktop_files : List DesktopFile)
    (icon_lookup : String → Option String) (path_cands : List PathCandidate)
    (v : Option String) :
    load_applications heatmap (desktop_files.map (set_no_display v)) icon_lookup path_cands =
      load_applications heatmap desktop_files icon_lookup path_cands := by
  unfold load_applications
  have : ∀ (l : List DesktopFile) (apps : Index),
      (l.map (set_no_display v)).foldl (process_desktop_file heatmap) apps =
        l.foldl (process_desktop_file heatmap) apps := by
    intro l
    induction l with
    | nil => intro apps; rfl
    | cons f t ih =>
      intro apps
      simp only [List.map_cons, List.foldl_cons,
        process_desktop_file_set_no_display, ih]
  rw [this]

/-- A desktop-entry file carrying `NoDisplay=true` together with a `Name`. -/
def hidden_desktop_file : DesktopFile :=
  { file_name := some "hidden.desktop", path := "/usr/share/applications/hidden.desktop",
    parsed := some { name := some "Hidden Tool", exec := some "hidden-tool",
                     icon := none, comment := none, generic_name := none,
                     no_display := some "true" } }

/-- C6 is false on the code: a desktop-entry file marked `NoDisplay=true`
still contributes its entry to the index built by `load_applications`. -/
theorem c6_nodisplay_entry_still_indexed :
    map_lookup (load_applications [] [hidden_desktop_file] (fun _ => none) []) "Hidden Tool" =
      some { name := "Hidden Tool", exec := "hidden-tool",
             icon_name := "application-x-executable",
             path := "/usr/share/applications/hidden.desktop", description := "",
             launch_count := 0, entry_type := EntryType.Application, score_boost := 0 } := by
  decide

/-! ## C9: scores are monotone in launch_count -/

theorem calculate_bonus_score_mono (a : AppEntry) (lc1 lc2 : Nat) (h : lc1 ≤ lc2) :
    calculate_bonus_score { a with launch_count := lc1 } ≤
      calculate_bonus_score { a with launch_count := lc2 } := by
  have h1 : (lc1 : Int) ≤ (lc2 : Int) := Int.ofNat_le.mpr h
  have h2 : (lc1 : Int) * BONUS_SCORE_LAUNCH_COUNT ≤ (lc2 : Int) * BONUS_SCORE_LAUNCH_COUNT :=
    mul_le_mul_of_nonneg_right h1 (by norm_num [BONUS_SCORE_LAUNCH_COUNT])
  simp only [calculate_bonus_score]
  exact add_le_add_right h2 _

/-- C9: increasing `launch_count` with all other fields equal never decreases
the score search assigns: the empty-query score (which is exactly
`calculate_bonus_score`) and every text-mode score (`text_score`, both the
exact-match and the fuzzy branch) are monotone in `launch_count`. -/
theorem c9_score_monotone_in_launch_count (a : AppEntry) (lc1 lc2 : Nat)
    (matcher : String → String → Option Int) (q : String) (s1 s2 : Int)
    (hlc : lc1 ≤ lc2)
    (h1 : text_score matcher q { a with launch_count := lc1 } = some s1)
    (h2 : text_score matcher q { a with launch_count := lc2 } = some s2) :
    calculate_bonus_score { a with launch_count := lc1 } ≤
      calculate_bonus_score { a with launch_count := lc2 } ∧ s1 ≤ s2 := by
  have hmono := calculate_bonus_score_mono a lc1 lc2 hlc
  refine ⟨hmono, ?_⟩
  simp only [text_score] at h1 h2
  by_cases hx : to_lowercase a.name = q
  · simp only [if_pos hx, Option.some.injEq] at h1 h2
    rw [← h1, ← h2]
    exact add_le_add_left hmono _
  · simp only [if_neg hx] at h1 h2
    cases hm : matcher (to_lowercase a.name) q with
    | none => rw [hm] at h1; simp at h1
    | some s =>
      rw [hm] at h1 h2
      simp only [Option.map_some', Option.some.injEq] at h1 h2
      rw [← h1, ← h2]
      exact add_le_add_left hmono s

/-- A generic application entry used to instantiate hypothesis-bearing
theorems on concrete inputs. -/
def sample_entry : AppEntry :=
  { name := "File Manager", exec := "fm", icon_name := "system-file-manager",
    path := "/usr/share/applications/fm.desktop", description := "",
    launch_count := 0, entry_type := EntryType.Application, score_boost := 0 }

theorem c9_score_monotone_witness :
    calculate_bonus_score { sample_entry with launch_count := 1 } ≤
        calculate_bonus_score { sample_entry with launch_count := 2 } ∧ (1164 : Int) ≤ 1264 :=
  c9_score_monotone_in_launch_count sample_entry 1 2 subseq_score "file" 1164 1264
    (by decide) (by decide) (by decide)

/-! ## C7: the built index has unique names, all Application entries -/

/-- The invariant claim C7 states of the built index. -/
def index_wf (m : Index) : Prop :=
  (m.map Prod.fst).Nodup ∧
    ∀ p ∈ m, p.2.entry_type = EntryType.Application ∧ p.2.name = p.1

theorem mem_keys_map_insert {β : Type} {m : List (String × β)} {k a : String} {v : β}
    (h : a ∈ (map_insert m k v).map Prod.fst) : a = k ∨ a ∈ m.map Prod.fst := by
  induction m with
  | nil => simpa [map_insert] using h
  | cons p ps ih =>
    by_cases hp : p.1 = k
    · simp only [map_insert, if_pos hp, List.map_cons, List.mem_cons] at h
      rcases h with h | h
      · exact Or.inl h
      · exact Or.inr (List.mem_cons_of_mem _ h)
    · simp only [map_insert, if_neg hp, List.map_cons, List.mem_cons] at h
      rcases h with h | h
      · exact Or.inr (by simp [h])
      · rcases ih h with h' | h'
        · exact Or.inl h'
        · exact Or.inr (List.mem_cons_of_mem _ h')

theorem nodup_keys_map_insert {β : Type} {m : List (String × β)} {k : String} {v : β}
    (h : (m.map Prod.fst).Nodup) : ((map_insert m k v).map Prod.fst).Nodup := by
  induction m with
  | nil => simp [map_insert]
  | cons p ps ih =>
    simp only [List.map_cons, List.nodup_cons] at h
    by_cases hp : p.1 = k
    · simp only [map_insert, if_pos hp, List.map_cons, List.nodup_cons]
      exact ⟨hp ▸ h.1, h.2⟩
    · simp only [map_insert, if_neg hp, List.map_cons, List.nodup_cons]
      refine ⟨fun hmem => ?_, ih h.2⟩
      rcases mem_keys_map_insert hmem with h' | h'
      · exact hp h'
      · exact h.1 h'

theorem forall_map_insert {β : Type} {P : String × β → Prop} (k : String) (v : β)
    (hv : P (k, v)) :
    ∀ (m : List (String × β)), (∀ p ∈ m, P p) → ∀ p ∈ map_insert m k v, P p := by
  intro m
  induction m with
  | nil =>
    intro _ p hp
    simp only [map_insert, List.mem_singleton] at hp
    subst hp; exact hv
  | cons q ps ih =>
    intro hm p hp
    by_cases hq : q.1 = k
    · simp only [map_insert, if_pos hq, List.mem_cons] at hp
      rcases hp with hp | hp
      · subst hp; exact hv
      · exact hm p (List.mem_cons_of_mem _ hp)
    · simp only [map_insert, if_neg hq, List.mem_cons] at hp
      rcases hp with hp | hp
      · rw [hp]; exact hm q (List.mem_cons_self _ _)
      · exact ih (fun r hr => hm r (List.mem_cons_of_mem _ hr)) p hp

theorem index_wf_map_insert {m : Index} {k : String} {e : AppEntry}
    (h : index_wf m) (he : e.entry_type = EntryType.Application ∧ e.name = k) :
    index_wf (map_insert m k e) :=
  ⟨nodup_keys_map_insert h.1, forall_map_insert k e ⟨he.1, he.2⟩ m h.2⟩

theorem process_desktop_file_wf (heatmap : Heatmap) (f : DesktopFile) {apps : Index}
    (h : index_wf apps) : index_wf (process_desktop_file heatmap apps f) := by
  unfold process_desktop_file
  split
  · exact h
  · split
    · split
      · exact h
      · split
        · exact h
        · exact index_wf_map_insert h ⟨rfl, rfl⟩
    · exact h

theorem path_phase_entries_spec (heatmap : Heatmap) (icon_lookup : String → Option String)
    (cands : List PathCandidate) :
    ∀ p ∈ path_phase_entries heatmap icon_lookup cands,
      p.2.entry_type = EntryType.Application ∧ p.2.name = p.1 ∧
        p.2.exec = p.2.path ∧ p.2.description = "" := by
  intro p hp
  simp only [path_phase_entries, List.mem_filterMap] at hp
  obtain ⟨c, _, hc⟩ := hp
  split at hc
  · cases hfn : c.file_name with
    | none => rw [hfn] at hc; simp at hc
    | some nm =>
      rw [hfn] at hc
      simp only [Option.map_some', Option.some.injEq] at hc
      subst hc
      exact ⟨rfl, rfl, rfl, rfl⟩
  · simp at hc

theorem index_wf_foldl_path (l : List (String × AppEntry)) (m : Index)
    (hm : index_wf m)
    (hl : ∀ p ∈ l, p.2.entry_type = EntryType.Application ∧ p.2.name = p.1) :
    index_wf (l.foldl (fun m p => map_insert m p.1 p.2) m) := by
  induction l generalizing m with
  | nil => exact hm
  | cons p t ih =>
    simp only [List.foldl_cons]
    exact ih _ (index_wf_map_insert hm (hl p (List.mem_cons_self _ _)))
      (fun r hr => hl r (List.mem_cons_of_mem _ hr))

theorem index_wf_desktop_fold (heatmap : Heatmap) (l : List DesktopFile) (m : Index)
    (hm : index_wf m) : index_wf (l.foldl (process_desktop_file heatmap) m) := by
  induction l generalizing m with
  | nil => exact hm
  | cons f t ih =>
    simp only [List.foldl_cons]
    exact ih _ (process_desktop_file_wf heatmap f hm)

/-- C7: every index produced by a completed `load_applications` run maps each
name to exactly one entry (the key list has no duplicates and each entry
carries its key as `name`) and every entry has `entry_type = Application`. -/
theorem c7_index_unique_names_all_applications (heatmap : Heatmap)
    (desktop_files : List DesktopFile) (icon_lookup : String → Option String)
    (path_cands : List PathCandidate) :
    ((load_applications heatmap desktop_files icon_lookup path_cands).map Prod.fst).Nodup ∧
      ∀ p ∈ load_applications heatmap desktop_files icon_lookup path_cands,
        p.2.entry_type = EntryType.Application ∧ p.2.name = p.1 := by
  have hw : index_wf (load_applications heatmap desktop_files icon_lookup path_cands) := by
    unfold load_applications
    refine index_wf_foldl_path _ _ ?_ ?_
    · exact index_wf_desktop_fold heatmap desktop_files [] ⟨by simp, by simp⟩
    · intro p hp
      have := path_phase_entries_spec heatmap icon_lookup path_cands p hp
      exact ⟨this.1, this.2.1⟩
  exact hw

/-! ## C10: PATH executables overwrite desktop entries of the same name -/

theorem map_lookup_foldl_insert {β : Type} (l : List (String × β)) (m : List (String × β))
    (k : String) :
    map_lookup (l.foldl (fun m p => map_insert m p.1 p.2) m) k =
      l.foldl (fun acc p => if p.1 = k then some p.2 else acc) (map_lookup m k) := by
  induction l generalizing m with
  | nil => rfl
  | cons p t ih =>
    simp only [List.foldl_cons]
    rw [ih, map_lookup_map_insert]

/-- The value surviving for key `k` after all pairs of `l` are inserted in
order (later pairs overwrite earlier ones). -/
def last_value_for {β : Type} (l : List (String × β)) (k : String) : Option β :=
  l.foldl (fun acc p => if p.1 = k then some p.2 else acc) none

theorem foldl_update_some {β : Type} (l : List (String × β)) (k : String) (v : β) :
    ∃ w, l.foldl (fun acc p => if p.1 = k then some p.2 else acc) (some v) = some w := by
  induction l generalizing v with
  | nil => exact ⟨v, rfl⟩
  | cons p t ih =>
    simp only [List.foldl_cons]
    by_cases hp : p.1 = k
    · simp only [if_pos hp]; exact ih p.2
    · simp only [if_neg hp]; exact ih v

theorem foldl_update_init {β : Type} (l : List (String × β)) (k : String) :
    ∀ (init : Option β),
      l.foldl (fun acc p => if p.1 = k then some p.2 else acc) init =
        (match last_value_for l k with
         | some v => some v
         | none => init) := by
  induction l with
  | nil => intro init; rfl
  | cons p t ih =>
    intro init
    simp only [List.foldl_cons, last_value_for, List.foldl_cons]
    by_cases hp : p.1 = k
    · simp only [if_pos hp]
      obtain ⟨w, hw⟩ := foldl_update_some t k p.2
      rw [hw]
    · simp only [if_neg hp]
      exact ih init

theorem last_value_for_mem {β : Type} (l : List (String × β)) (k : String) {v : β}
    (h : last_value_for l k = some v) : (k, v) ∈ l := by
  have aux : ∀ (l' : List (String × β)) (init : Option β),
      l'.foldl (fun acc p => if p.1 = k then some p.2 else acc) init = some v →
        (k, v) ∈ l' ∨ init = some v := by
    intro l'
    induction l' with
    | nil => intro init h'; exact Or.inr h'
    | cons p t ih =>
      intro init h'
      simp only [List.foldl_cons] at h'
      rcases ih _ h' with h'' | h''
      · exact Or.inl (List.mem_cons_of_mem _ h'')
      · by_cases hp : p.1 = k
        · rw [if_pos hp] at h''
          have hv : v = p.2 := by injection h''.symm
          subst hv
          left
          have : p = (k, p.2) := by
            cases p with
            | mk a b => simp at hp ⊢; exact hp
          rw [← this]
          exact List.mem_cons_self _ _
        · rw [if_neg hp] at h''
          exact Or.inr h''
  rcases aux l none h with h' | h'
  · exact h'
  · simp at h'

/-- C10: when a name appears among the PATH-scan results, the index built by
`load_applications` maps that name to the surviving PATH-executable entry —
whose `exec` and `path` both hold the binary's filesystem path and whose
description is empty — regardless of any desktop entry of the same name,
because the PATH results are inserted after all desktop entries. -/
theorem c10_path_executable_overwrites_desktop (heatmap : Heatmap)
    (desktop_files : List DesktopFile) (icon_lookup : String → Option String)
    (path_cands : List PathCandidate) (name : String) (e : AppEntry)
    (h : last_value_for (path_phase_entries heatmap icon_lookup path_cands) name = some e) :
    map_lookup (load_applications heatmap desktop_files icon_lookup path_cands) name =
        some e ∧ e.exec = e.path ∧ e.description = "" ∧ e.name = name := by
  have hmem := last_value_for_mem _ _ h
  have hspec := path_phase_entries_spec heatmap icon_lookup path_cands (name, e) hmem
  refine ⟨?_, hspec.2.2.1, hspec.2.2.2, hspec.2.1⟩
  unfold load_applications
  rw [map_lookup_foldl_insert, foldl_update_init, h]

/-- A desktop entry and a PATH executable sharing the name `"ls"`. -/
def c10_desktop_file : DesktopFile :=
  { file_name := some "ls.desktop", path := "/usr/share/applications/ls.desktop",
    parsed := some { name := some "ls", exec := some "ls-gui", icon := some "ls-icon",
                     comment := some "List files", generic_name := none, no_display := none } }

def c10_path_candidate : PathCandidate :=
  { is_file := true, exec_bit := true, file_name := some "ls", path := "/usr/bin/ls" }

theorem c10_path_executable_overwrites_witness :
    map_lookup (load_applications [] [c10_desktop_file] (fun _ => none) [c10_path_candidate])
        "ls" = some { name := "ls", exec := "/usr/bin/ls", icon_name := "",
                      path := "/usr/bin/ls", description := "", launch_count := 0,
                      entry_type := EntryType.Application, score_boost := 0 } ∧
      ("/usr/bin/ls" : String) = "/usr/bin/ls" ∧ ("" : String) = "" ∧ ("ls" : String) = "ls" :=
  c10_path_executable_overwrites_desktop [] [c10_desktop_file] (fun _ => none)
    [c10_path_candidate] "ls" _ (by decide)

/-! ## Text-mode candidate lemmas -/

theorem text_candidates_spec (matcher : String → String → Option Int) (q : String)
    (apps : List AppEntry) (r : SearchResult) (hr : r ∈ text_candidates matcher q apps) :
    r.app ∈ apps ∧ text_score matcher q r.app = some r.score := by
  simp only [text_candidates, List.mem_filterMap] at hr
  obtain ⟨x, hx, hmap⟩ := hr
  cases hts : text_score matcher q x with
  | none => rw [hts] at hmap; simp at hmap
  | some s =>
    rw [hts] at hmap
    simp only [Option.map_some', Option.some.injEq] at hmap
    subst hmap
    exact ⟨hx, hts⟩

theorem text_candidates_mem_of (matcher : String → String → Option Int) (q : String)
    (apps : List AppEntry) (a : AppEntry) (s : Int) (ha : a ∈ apps)
    (hs : text_score matcher q a = some s) :
    ({ app := a, score := s } : SearchResult) ∈ text_candidates matcher q apps := by
  simp only [text_candidates, List.mem_filterMap]
  exact ⟨a, ha, by rw [hs]; rfl⟩

/-! ## C2: exact match versus fuzzy match -/

/-- C2 (amended): an exact case-insensitive name match outranks a fuzzy match
provided the fuzzy candidate's total (its fuzzy score plus its bonus terms)
stays below the exact candidate's total (`BONUS_SCORE_BINARY` plus its bonus
terms) — in particular whenever the launch counts and icon-bonus status of the
two entries agree and the fuzzy score is below `BONUS_SCORE_BINARY`.  Without
such a bound the claim is false: the launch-count weight can lift a fuzzy
match above an exact one (see the counterexample). -/
theorem c2_exact_outranks_fuzzy_bounded (matcher : String → String → Option Int)
    (q : String) (apps : List AppEntry) (a b : AppEntry) (s : Int)
    (ha : a ∈ apps) (hexact : to_lowercase a.name = q)
    (hfz : to_lowercase b.name ≠ q) (hm : matcher (to_lowercase b.name) q = some s)
    (hbound : s + calculate_bonus_score b < BONUS_SCORE_BINARY + calculate_bonus_score a) :
    (∃ ra ∈ text_candidates matcher q apps, ra.app = a) ∧
      ∀ ra rb, ra ∈ text_candidates matcher q apps → rb ∈ text_candidates matcher q apps →
        ra.app = a → rb.app = b → rb.score < ra.score := by
  have hsa : text_score matcher q a = some (BONUS_SCORE_BINARY + calculate_bonus_score a) := by
    simp [text_score, hexact]
  have hsb : text_score matcher q b = some (s + calculate_bonus_score b) := by
    simp [text_score, hfz, hm]
  constructor
  · exact ⟨_, text_candidates_mem_of matcher q apps a _ ha hsa, rfl⟩
  · intro ra rb hra hrb haa hbb
    have h1 := (text_candidates_spec matcher q apps ra hra).2
    have h2 := (text_candidates_spec matcher q apps rb hrb).2
    rw [haa, hsa] at h1
    rw [hbb, hsb] at h2
    have e1 : BONUS_SCORE_BINARY + calculate_bonus_score a = ra.score := by injection h1
    have e2 : s + calculate_bonus_score b = rb.score := by injection h2
    omega

/-- Exact-match candidate of the C2 counterexample: no launches, generic
executable icon, so its total is exactly `BONUS_SCORE_BINARY` = 3000. -/
def c2_exact_entry : AppEntry :=
  { name := "File", exec := "file-app", icon_name := "application-x-executable",
    path := "/usr/share/applications/file.desktop", description := "",
    launch_count := 0, entry_type := EntryType.Application, score_boost := 0 }

/-- Fuzzy-match candidate of the C2 counterexample: 40 launches contribute
4000 bonus points. -/
def c2_fuzzy_entry : AppEntry :=
  { name := "File Manager", exec := "fm", icon_name := "application-x-executable",
    path := "/usr/share/applications/fm.desktop", description := "",
    launch_count := 40, entry_type := EntryType.Application, score_boost := 0 }

/-- C2 is false on the code as stated (\"regardless of both entries'
launch_count values\"): with 40 launches the fuzzy match totals 64 + 4000 and
outranks the exact match's 3000. -/
theorem c2_fuzzy_outranks_exact_on_launch_count :
    (search_applications subseq_score empty_fs 50 "file"
        [c2_exact_entry, c2_fuzzy_entry]).map (fun r => (r.app.name, r.score)) =
      [("File Manager", 4064), ("File", 3000)] ∧ ¬ ((3000 : Int) > 4064) := by
  exact ⟨by decide, by decide⟩

theorem c2_exact_outranks_fuzzy_bounded_witness :
    (∃ ra ∈ text_candidates subseq_score "file" [c2_exact_entry, sample_entry],
        ra.app = c2_exact_entry) ∧
      ∀ ra rb, ra ∈ text_candidates subseq_score "file" [c2_exact_entry, sample_entry] →
        rb ∈ text_candidates subseq_score "file" [c2_exact_entry, sample_entry] →
        ra.app = c2_exact_entry → rb.app = sample_entry → rb.score < ra.score :=
  c2_exact_outranks_fuzzy_bounded subseq_score "file" [c2_exact_entry, sample_entry]
    c2_exact_entry sample_entry 64 (by decide) (by decide) (by decide) (by decide) (by decide)

/-! ## C3: result caps per mode -/

theorem empty_query_loop_length (max_results : Nat) :
    ∀ (apps : List AppEntry) (len : Nat),
      (empty_query_loop max_results len apps).length ≤ Nat.max (max_results - len) 1 := by
  intro apps
  induction apps with
  | nil => intro len; simp [empty_query_loop]
  | cons a t ih =>
    intro len
    simp only [empty_query_loop]
    split
    · split
      · simp only [List.length_singleton]
        exact Nat.le_max_right (max_results - len) 1
      · rename_i hbreak
        have hrec := ih (len + 1)
        have h3 : Nat.max (max_results - (len + 1)) 1 = max_results - (len + 1) :=
          Nat.max_eq_left (by omega)
        have h4 : Nat.max (max_results - len) 1 = max_results - len :=
          Nat.max_eq_left (by omega)
        rw [h3] at hrec
        rw [h4]
        simp only [List.length_cons]
        omega
    · exact ih len

theorem search_empty_length (max_results : Nat) (apps : List AppEntry) :
    (search_empty max_results apps).length ≤ Nat.max max_results 1 := by
  unfold search_empty
  rw [(List.perm_insertionSort score_ge _).length_eq]
  simpa using empty_query_loop_length max_results apps 0

/-- C3 (amended): text mode returns at most `max_results` entries, and
empty-query mode at most `Nat.max max_results 1` (the loop's break test runs
only after a push, so with `max_results = 0` one entry can still be returned;
for any `max_results ≥ 1` the bound is `max_results`).  Path mode has no cap
at all — see the counterexample. -/
theorem c3_text_and_empty_capped (matcher : String → String → Option Int) (fs : FS)
    (max_results : Nat) (q : String) (apps : List AppEntry) :
    (search_text matcher fs max_results q apps).length ≤ max_results ∧
      (search_applications matcher fs max_results "" apps).length ≤ Nat.max max_results 1 := by
  constructor
  · exact List.length_take_le _ _
  · exact search_empty_length max_results apps

/-- A directory `/d` with two plain-file children, used to exhibit the missing
path-mode cap. -/
def c3_fs : FS :=
  { expand := fun s => some s,
    meta := fun p =>
      if p = "/d" then some { is_file := false, is_dir := true, exec_bit := false }
      else if p = "/d/a" ∨ p = "/d/b" then
        some { is_file := true, is_dir := false, exec_bit := false }
      else none,
    read_dir := fun p => if p = "/d" then some ["/d/a", "/d/b"] else none,
    parent := fun p => if p = "/d" then some "/" else none,
    file_name := fun p =>
      if p = "/d/a" then some "a" else if p = "/d/b" then some "b" else none,
    mime_of := fun _ => "text/plain" }

/-- C3 is false on the code for path mode: listing `/d` (two children) with
`max_results = 1` returns 2 entries — `handle_path_search` never truncates. -/
theorem c3_path_mode_exceeds_max_results :
    (search_applications subseq_score c3_fs 1 "/d" []).length = 2 ∧ ¬ (2 ≤ 1) := by
  exact ⟨by decide, by decide⟩

/-! ## C5: result-name uniqueness in text mode -/

theorem text_candidates_names_sublist (matcher : String → String → Option Int) (q : String)
    (apps : List AppEntry) :
    ((text_candidates matcher q apps).map (fun r => r.app.name)).Sublist
      (apps.map AppEntry.name) := by
  induction apps with
  | nil => simp [text_candidates]
  | cons a t ih =>
    simp only [text_candidates, List.filterMap_cons, List.map_cons]
    cases h : text_score matcher q a with
    | none => exact ih.cons _
    | some s =>
      simp only [Option.map_some', List.map_cons]
      exact ih.cons₂ _

theorem mem_seen_names_of (matcher : String → String → Option Int) (q : String)
    (apps : List AppEntry) (a : AppEntry) (ha : a ∈ apps)
    (hs : (text_score matcher q a).isSome = true) :
    to_lowercase a.name ∈ seen_names matcher q apps := by
  simp only [seen_names, List.mem_filterMap]
  exact ⟨a, ha, by rw [if_pos hs]⟩

theorem check_binary_name (fs : FS) (q : String) (r : SearchResult)
    (h : check_binary fs q = some r) : r.app.name = q := by
  unfold check_binary at h
  split at h
  · simp at h
  · split at h <;>
      first
      | (simp only [Option.some.injEq] at h; rw [← h])
      | (simp at h; rw [← h.2])

theorem not_mem_candidates_names (matcher : String → String → Option Int) (q : String)
    (apps : List AppEntry) (hq : to_lowercase q = q)
    (hnotseen : q ∉ seen_names matcher q apps) :
    q ∉ (text_candidates matcher q apps).map (fun r => r.app.name) := by
  intro hmem
  simp only [List.mem_map] at hmem
  obtain ⟨r, hr, hname⟩ := hmem
  obtain ⟨hra, hsc⟩ := text_candidates_spec matcher q apps r hr
  apply hnotseen
  have hmem2 := mem_seen_names_of matcher q apps r.app hra (by rw [hsc]; rfl)
  rw [hname, hq] at hmem2
  exact hmem2

theorem names_nodup_sorted_take (L : List SearchResult) (max_results : Nat)
    (h : (L.map (fun r => r.app.name)).Nodup) :
    (((List.insertionSort score_ge L).take max_results).map (fun r => r.app.name)).Nodup := by
  have hperm : List.Perm ((List.insertionSort score_ge L).map (fun r => r.app.name))
      (L.map (fun r => r.app.name)) := (List.perm_insertionSort score_ge L).map _
  have hsorted : ((List.insertionSort score_ge L).map (fun r => r.app.name)).Nodup :=
    hperm.nodup_iff.mpr h
  rw [List.map_take]
  exact List.Nodup.sublist (List.take_sublist _ _) hsorted

/-- C5 (amended): text mode performs no case-insensitive de-duplication — the
`seen_names` set only suppresses the binary fallback.  What does hold: when
the index's entry names are pairwise distinct (as `HashMap` keys are), the
returned names are pairwise distinct *exactly*, the fallback included; but
two entries whose names differ only in case both appear (see the
counterexample). -/
theorem c5_names_nodup (matcher : String → String → Option Int) (fs : FS)
    (max_results : Nat) (q : String) (apps : List AppEntry)
    (hq : to_lowercase q = q) (hnd : (apps.map AppEntry.name).Nodup) :
    ((search_text matcher fs max_results q apps).map (fun r => r.app.name)).Nodup := by
  have hcands : ((text_candidates matcher q apps).map (fun r => r.app.name)).Nodup :=
    List.Nodup.sublist (text_candidates_names_sublist matcher q apps) hnd
  unfold search_text
  split
  · exact names_nodup_sorted_take _ _ hcands
  · rename_i hnot
    apply names_nodup_sorted_take
    cases hcb : check_binary fs q with
    | none => simpa using hcands
    | some r =>
      simp only [Option.toList_some, List.map_append, List.map_cons, List.map_nil]
      rw [List.nodup_append]
      refine ⟨hcands, List.nodup_singleton _, ?_⟩
      intro x hx hx2
      simp only [List.mem_singleton] at hx2
      rw [hx2, check_binary_name fs q r hcb] at hx
      exact not_mem_candidates_names matcher q apps hq hnot hx

theorem c5_names_nodup_witness :
    ((search_text subseq_score empty_fs 50 "zzz" [sample_entry]).map
        (fun r => r.app.name)).Nodup :=
  c5_names_nodup subseq_score empty_fs 50 "zzz" [sample_entry] (by decide) (by decide)

/-- Two index entries whose names differ only in case. -/
def c5_upper_entry : AppEntry :=
  { name := "Foo", exec := "foo1", icon_name := "application-x-executable",
    path := "/a/foo.desktop", description := "",
    launch_count := 0, entry_type := EntryType.Application, score_boost := 0 }

def c5_lower_entry : AppEntry :=
  { name := "foo", exec := "foo2", icon_name := "application-x-executable",
    path := "/b/foo.desktop", description := "",
    launch_count := 0, entry_type := EntryType.Application, score_boost := 0 }

/-- C5 is false on the code: with entries `"Foo"` and `"foo"` both in the
index, the query `"foo"` returns both — two results whose names are equal
case-insensitively. -/
theorem c5_case_insensitive_duplicate_names :
    (search_applications subseq_score empty_fs 50 "foo"
        [c5_upper_entry, c5_lower_entry]).map (fun r => to_lowercase r.app.name) =
      ["foo", "foo"] ∧
      ¬ ((search_applications subseq_score empty_fs 50 "foo"
          [c5_upper_entry, c5_lower_entry]).map (fun r => to_lowercase r.app.name)).Nodup := by
  exact ⟨by decide, by decide⟩

/-! ## C4: path-mode listing order -/

theorem lex_cmp_swap (as : List Char) : ∀ bs, lex_cmp bs as = (lex_cmp as bs).swap := by
  induction as with
  | nil => intro bs; cases bs <;> rfl
  | cons a as ih =>
    intro bs
    cases bs with
    | nil => rfl
    | cons b bs =>
      simp only [lex_cmp]
      rcases Nat.lt_trichotomy a.toNat b.toNat with h | h | h
      · rw [if_neg (by omega), if_pos h, if_pos h]; rfl
      · rw [if_neg (by omega), if_neg (by omega), if_neg (by omega), if_neg (by omega)]
        exact ih bs
      · rw [if_pos h, if_pos h]
        rw [if_neg (by omega)]
        rfl

theorem lex_cmp_ngt_trans (as : List Char) :
    ∀ bs cs, lex_cmp as bs ≠ Ordering.gt → lex_cmp bs cs ≠ Ordering.gt →
      lex_cmp as cs ≠ Ordering.gt := by
  induction as with
  | nil =>
    intro bs cs _ _
    cases cs <;> simp [lex_cmp]
  | cons a as ih =>
    intro bs cs h1 h2
    cases bs with
    | nil => simp [lex_cmp] at h1
    | cons b bs =>
      cases cs with
      | nil => simp [lex_cmp] at h2
      | cons c cs =>
        simp only [lex_cmp] at h1 h2 ⊢
        by_cases hab : a.toNat < b.toNat
        · by_cases hbc : b.toNat < c.toNat
          · rw [if_pos (by omega)]; simp
          · by_cases hcb : c.toNat < b.toNat
            · rw [if_neg hbc, if_pos hcb] at h2; exact absurd rfl h2
            · rw [if_pos (by omega)]; simp
        · by_cases hba : b.toNat < a.toNat
          · rw [if_neg hab, if_pos hba] at h1; exact absurd rfl h1
          · rw [if_neg hab, if_neg hba] at h1
            by_cases hbc : b.toNat < c.toNat
            · rw [if_pos (by omega)]; simp
            · by_cases hcb : c.toNat < b.toNat
              · rw [if_neg hbc, if_pos hcb] at h2; exact absurd rfl h2
              · rw [if_neg hbc, if_neg hcb] at h2
                rw [if_neg (by omega), if_neg (by omega)]
                exact ih bs cs h1 h2

instance : IsTrans SearchResult path_le where
  trans a b c hab hbc := by
    unfold path_le path_cmp at hab hbc ⊢
    by_cases fa : a.app.icon_name = "folder" <;>
      by_cases fb : b.app.icon_name = "folder" <;>
        by_cases fc : c.app.icon_name = "folder" <;>
          simp only [fa, fb, fc, if_true, if_false, eq_self_iff_true, not_true, not_false_iff,
            ite_true, ite_false] at hab hbc ⊢ <;>
          first
          | exact lex_cmp_ngt_trans _ _ _ hab hbc
          | decide
          | exact absurd rfl hbc
          | exact absurd rfl hab

instance : IsTotal SearchResult path_le where
  total a b := by
    unfold path_le path_cmp
    by_cases fa : a.app.icon_name = "folder" <;>
      by_cases fb : b.app.icon_name = "folder" <;>
        simp only [fa, fb, if_true, if_false, eq_self_iff_true, not_true, not_false_iff,
          ite_true, ite_false] <;>
        first
        | (left; decide)
        | (right; decide)
        | (rcases h : lex_cmp (res_name_key a) (res_name_key b) with _ | _ | _
           · left; simp [h]
           · left; simp [h]
           · right; rw [lex_cmp_swap, h]; decide)

/-- The ordering claim C4 states of the listed children: directories strictly
before files, and within the same kind non-descending case-insensitive name
order. -/
def listed_before (a b : SearchResult) : Prop :=
  (is_folder_result a ∧ ¬ is_folder_result b) ∨
    ((is_folder_result a ↔ is_folder_result b) ∧
      lex_cmp (res_name_key a) (res_name_key b) ≠ Ordering.gt)

theorem path_le_implies_listed_before {a b : SearchResult} (h : path_le a b) :
    listed_before a b := by
  unfold path_le path_cmp at h
  unfold listed_before is_folder_result
  by_cases fa : a.app.icon_name = "folder" <;>
    by_cases fb : b.app.icon_name = "folder" <;>
      simp only [fa, fb, if_true, if_false, eq_self_iff_true, not_true, not_false_iff,
        ite_true, ite_false] at h ⊢ <;>
      first
      | exact absurd rfl h
      | exact Or.inr ⟨by simp [fa, fb], h⟩
      | tauto

/-- The conclusion of claim C4 about one path-mode listing. -/
def path_listing_ok (fs : FS) (q : String) : Prop :=
  (handle_path_search fs q).head?.map (fun r => (r.app.name, r.score)) =
      some ("..", BONUS_SCORE_FOLDER) ∧
    List.Perm ((handle_path_search fs q).tail)
      (((fs.read_dir (listing_dir fs q)).getD []).filterMap (resolve_child fs)) ∧
    List.Pairwise listed_before ((handle_path_search fs q).tail) ∧
    ∀ r ∈ (handle_path_search fs q).tail,
      r.score = if r.app.icon_name = "folder" then BONUS_SCORE_FOLDER else BONUS_SCORE_ICON_NAME

/-- C4 (amended): when the resolved listing directory is readable *and* has a
parent that `create_file_entry` resolves (for a directory directly under the
filesystem root the parent `"/"` has no file name, so resolution fails and no
`".."` entry is produced — see the counterexample), the returned list places
the synthetic `".."` entry first with the directory-boost score, followed by
exactly the resolvable children, ordered directories-first and alphabetically
case-insensitively within each group, directories scored
`BONUS_SCORE_FOLDER` and files the smaller `BONUS_SCORE_ICON_NAME`. -/
theorem c4_path_listing_order (fs : FS) (q : String) (children : List String)
    (pe : String) (de : AppEntry)
    (hrd : fs.read_dir (listing_dir fs q) = some children)
    (hpar : fs.parent (listing_dir fs q) = some pe)
    (hde : create_file_entry fs pe = some de) :
    path_listing_ok fs q := by
  have hout : handle_path_search fs q =
      { app := { de with name := "..", score_boost := BONUS_SCORE_FOLDER },
        score := BONUS_SCORE_FOLDER } ::
        List.insertionSort path_le (children.filterMap (resolve_child fs)) := by
    unfold handle_path_search dotdot_entry
    simp only [hrd, hpar, hde, List.singleton_append]
  refine ⟨?_, ?_, ?_, ?_⟩
  · rw [hout]; rfl
  · rw [hout, hrd]
    simp only [List.tail_cons, Option.getD_some]
    exact List.perm_insertionSort path_le _
  · rw [hout]
    simp only [List.tail_cons]
    exact List.Pairwise.imp (fun h => path_le_implies_listed_before h)
      (List.sorted_insertionSort path_le _)
  · rw [hout]
    intro r hr
    simp only [List.tail_cons] at hr
    have hr2 : r ∈ children.filterMap (resolve_child fs) :=
      ((List.perm_insertionSort path_le _).mem_iff).mp hr
    simp only [List.mem_filterMap] at hr2
    obtain ⟨c, _, hc⟩ := hr2
    unfold resolve_child at hc
    cases hce : create_file_entry fs c with
    | none => rw [hce] at hc; simp at hc
    | some app =>
      rw [hce] at hc
      simp only [Option.map_some', Option.some.injEq] at hc
      subst hc
      by_cases hf : app.icon_name = "folder" <;> simp [hf]

/-- A home directory `/home/u` with a directory child and a text-file child;
its parent `/home` resolves, so the amended C4 applies. -/
def c4_fs : FS :=
  { expand := fun s => some s,
    meta := fun p =>
      if p = "/home/u" ∨ p = "/home" ∨ p = "/home/u/docs" then
        some { is_file := false, is_dir := true, exec_bit := false }
      else if p = "/home/u/a.txt" then
        some { is_file := true, is_dir := false, exec_bit := false }
      else none,
    read_dir := fun p => if p = "/home/u" then some ["/home/u/a.txt", "/home/u/docs"] else none,
    parent := fun p =>
      if p = "/home/u" then some "/home" else if p = "/home" then some "/" else none,
    file_name := fun p =>
      if p = "/home/u" then some "u"
      else if p = "/home" then some "home"
      else if p = "/home/u/docs" then some "docs"
      else if p = "/home/u/a.txt" then some "a.txt"
      else none,
    mime_of := fun _ => "text/plain" }

theorem c4_path_listing_order_witness : path_listing_ok c4_fs "/home/u" :=
  c4_path_listing_order c4_fs "/home/u" ["/home/u/a.txt", "/home/u/docs"] "/home"
    { name := "home", exec := "", icon_name := "folder", path := "/home", description := "",
      launch_count := 0, entry_type := EntryType.File, score_boost := 0 }
    (by decide) (by decide) (by decide)

/-- `/etc` directly under the filesystem root: the parent is `"/"`, whose
`Path::file_name` is `None`, so `create_file_entry` fails on it. -/
def c4_root_fs : FS :=
  { expand := fun s => some s,
    meta := fun p =>
      if p = "/etc" ∨ p = "/etc/nginx" ∨ p = "/" then
        some { is_file := false, is_dir := true, exec_bit := false }
      else if p = "/etc/hosts" then
        some { is_file := true, is_dir := false, exec_bit := false }
      else none,
    read_dir := fun p => if p = "/etc" then some ["/etc/nginx", "/etc/hosts"] else none,
    parent := fun p => if p = "/etc" then some "/" else none,
    file_name := fun p =>
      if p = "/etc/nginx" then some "nginx"
      else if p = "/etc/hosts" then some "hosts"
      else none,
    mime_of := fun _ => "text/plain" }

/-- C4 is false on the code as stated: the query `"/etc"` resolves to a
readable listing directory, yet the returned list has no `".."` entry at all —
its head is the child `"nginx"` — because `create_file_entry` on the parent
`"/"` fails (`file_name` is `none`). -/
theorem c4_no_dotdot_when_parent_root :
    (search_applications subseq_score c4_root_fs 50 "/etc" []).map
        (fun r => (r.app.name, r.score)) = [("nginx", 2000), ("hosts", 1000)] ∧
      ¬ ((search_applications subseq_score c4_root_fs 50 "/etc" []).head?.map
          (fun r => r.app.name) = some "..") := by
  exact ⟨by decide, by decide⟩

end Hyprlauncher
